import Mathlib

/-!
# Verification of the 1brc-go scan-parse-aggregate-merge pipeline

Shallow embedding of the Go sources of `asg0451/1brc-go` (the current root
`main.go`, the later variant in `unnamed/part_001`, and the older
`1brc/main.go`), together with proofs settling the frozen claims about the
program.

Conventions of the embedding:

* Bytes are `ℕ` (always `< 256` in the inputs considered); byte strings and
  files are `List ℕ`.  Go string/byte-slice values are byte lists.
* Go `float32` values are modeled as exact rationals (`Frac`) together with
  the IEEE-754 binary32 rounding function `round32` (round to nearest, ties
  to even).  Go's float32 `+`, `/` are correctly rounded, so they are modeled
  as exact rational operations followed by `round32`.  Overflow, subnormals,
  NaN and the sign of zero are outside the value range exercised here and are
  not modeled.
* Go maps that the program fills and later iterates are modeled as
  association lists in insertion order (Go's iteration order is unspecified;
  every property proved here is insensitive to that order or is evaluated on
  tables whose key sets differ).
* Go `panic` (and out-of-range indexing, which also panics) is modeled by
  `Option`/`none` where a claim depends on it; list indexing in the model
  uses `List.getD` with default `0`, and every theorem below only evaluates
  reads that are in range in the Go program.
-/

/-! ## Exact rational arithmetic (executable, structurally recursive)

`Frac` is a numerator/denominator pair; all denominators produced by the
operations below are positive.  Arithmetic normalizes through `fmk` so that
concrete computations produce canonical representatives.  Everything is
structural recursion on `ℕ` so that both the elaborator and the kernel can
evaluate it. -/

structure Frac where
  num : ℤ
  den : ℕ
deriving DecidableEq

/-- Euclidean gcd with explicit fuel (the fuel only bounds the recursion;
the algorithm stops as soon as the second argument is zero). -/
def ngcd : ℕ → ℕ → ℕ → ℕ
  | 0, a, _ => a
  | f+1, a, b => if b = 0 then a else ngcd f b (a % b)

/-- Build a normalized fraction from a numerator and a positive denominator. -/
def fmk (n : ℤ) (d : ℕ) : Frac :=
  let g := ngcd (d + 2) d n.natAbs
  if g = 0 then ⟨n, d⟩ else ⟨n / g, d / g⟩

def fofz (n : ℤ) : Frac := ⟨n, 1⟩

def fadd (x y : Frac) : Frac := fmk (x.num * y.den + y.num * x.den) (x.den * y.den)

def fneg (x : Frac) : Frac := ⟨-x.num, x.den⟩

def fmul (x y : Frac) : Frac := fmk (x.num * y.num) (x.den * y.den)

/-- Exact division of fractions (the divisor is never zero where this is
used; a zero divisor returns 0). -/
def fdivf (x y : Frac) : Frac :=
  if y.num = 0 then ⟨0, 1⟩
  else fmk (x.num * y.den * (if y.num < 0 then -1 else 1)) (x.den * y.num.natAbs)

def fle (x y : Frac) : Bool := decide (x.num * (y.den : ℤ) ≤ y.num * (x.den : ℤ))

/-- Go's builtin `min` on float32 (no NaN in the value range considered). -/
def fmin (x y : Frac) : Frac := if fle x y then x else y

/-- Go's builtin `max` on float32 (no NaN in the value range considered). -/
def fmax (x y : Frac) : Frac := if fle x y then y else x

/-- Value equality of fractions (representation-independent). -/
def feq (x y : Frac) : Prop := x.num * (y.den : ℤ) = y.num * (x.den : ℤ)

/-! ## IEEE-754 binary32 rounding -/

/-- Floor of log2 of a positive natural (fuel-bounded structural recursion;
the fuel is only a structural bound, the recursion stops at 1). -/
def nlog2 : ℕ → ℕ → ℕ
  | 0, _ => 0
  | f+1, n => if n < 2 then 0 else nlog2 f (n / 2) + 1

/-- Decide `2^e ≤ a/d` for naturals `a, d ≥ 1`. -/
def le2pow : ℤ → ℕ → ℕ → Bool
  | Int.ofNat k, a, d => decide (d * 2^k ≤ a)
  | Int.negSucc k, a, d => decide (d ≤ a * 2^(k+1))

/-- The `e` with `2^e ≤ a/d < 2^(e+1)`, for naturals `a, d ≥ 1`. -/
def qlog2 (a d : ℕ) : ℤ :=
  let e0 : ℤ := (nlog2 a a : ℤ) - (nlog2 d d : ℤ)
  if le2pow e0 a d then e0 else e0 - 1

/-- Round `x/d` (naturals, `d ≥ 1`) to the nearest integer, ties to even. -/
def rneN (x d : ℕ) : ℕ :=
  let q := x / d
  let r := x % d
  if 2*r < d then q else if d < 2*r then q+1 else if q % 2 = 0 then q else q + 1

/-- IEEE-754 binary32 rounding (round to nearest, ties to even) of an exact
rational value: the value is scaled so that its significand lies in
`[2^23, 2^24)`, the significand is rounded to the nearest integer (ties to
even) and scaled back.  This is the correct rounding for the whole normal
range of binary32; the program's values never reach overflow or subnormals. -/
def round32 (v : Frac) : Frac :=
  if v.num = 0 then ⟨0, 1⟩ else
  let a := v.num.natAbs
  let d := v.den
  let e := qlog2 a d
  let m := match 23 - e with
    | Int.ofNat s => rneN (a * 2^s) d
    | Int.negSucc s => rneN a (d * 2^(s+1))
  let mag : Frac := match e - 23 with
    | Int.ofNat t => ⟨(↑(m * 2^t) : ℤ), 1⟩
    | Int.negSucc t => fmk (↑m) (2^(t+1))
  if v.num < 0 then fneg mag else mag

/-- Go float32 addition: correctly rounded exact sum. -/
def add32 (x y : Frac) : Frac := round32 (fadd x y)

/-- Go float32 division: correctly rounded exact quotient. -/
def div32 (x y : Frac) : Frac := round32 (fdivf x y)

/-! ## Byte-string helpers -/

/-- The byte sequence of an ASCII string literal (used only to write
concrete inputs and expected outputs readably). -/
def strBytes (s : String) : List ℕ := s.data.map Char.toNat

/-- Concatenation of a list of lists. -/
def cat {α : Type} : List (List α) → List α
  | [] => []
  | l :: ls => l ++ cat ls

/-- Association-list lookup with byte-string keys (models Go map indexing
for `map[string]*stats`). -/
def alookup {β : Type} (k : List ℕ) : List (List ℕ × β) → Option β
  | [] => none
  | p :: rest => if p.1 = k then some p.2 else alookup k rest

/-- Association-list lookup with numeric keys (models Go map indexing for
`map[uint32]string`). -/
def nlookup {β : Type} (k : ℕ) : List (ℕ × β) → Option β
  | [] => none
  | p :: rest => if p.1 = k then some p.2 else nlookup k rest

/-! ## The program: `stats`, parsing, hashing, aggregation

All definitions below are translated from `src/main.go` unless the doc
comment says otherwise.  -/

/-- `stats` (src/main.go:75-77): running min, max, sum, count, all Go
`float32` fields. -/
structure stats where
  min : Frac
  max : Frac
  sum : Frac
  count : Frac
deriving DecidableEq

def statsDefault : stats := ⟨⟨0, 1⟩, ⟨0, 1⟩, ⟨0, 1⟩, ⟨0, 1⟩⟩

/-- `worker.splitOnSemi` (src/main.go:247-255): left-to-right scan for the
first `';'` (byte 59), splitting the line around it.  The Go code panics
when no semicolon is found; that is modeled as `none`. -/
def splitOnSemi : List ℕ → Option (List ℕ × List ℕ)
  | [] => none
  | b :: rest =>
    if b = 59 then some ([], rest)
    else (splitOnSemi rest).map (fun p => (b :: p.1, p.2))

/-- `worker.splitOnSemi` of the later variant (src/unnamed/part_001:248-259):
probes only the separator-to-end distances 5, 4 and 6, in that order.  A Go
negative index (line shorter than the probe distance) would panic; here `ℕ`
subtraction truncates at 0, and every theorem below applies this only to
lines of length ≥ 5, where the Go indices are in range.  The final panic is
modeled as `none`. -/
def splitOnSemiProbe (bs : List ℕ) : Option (List ℕ × List ℕ) :=
  if bs.getD (bs.length - 5) 0 = 59 then
    some (bs.take (bs.length - 5), bs.drop (bs.length - 5 + 1))
  else if bs.getD (bs.length - 4) 0 = 59 then
    some (bs.take (bs.length - 4), bs.drop (bs.length - 4 + 1))
  else if bs.getD (bs.length - 6) 0 = 59 then
    some (bs.take (bs.length - 6), bs.drop (bs.length - 6 + 1))
  else none

/-- `stationHash` (src/main.go:257-263): sum of the name's bytes in
`uint32` arithmetic. -/
def stationHash (name : List ℕ) : ℕ :=
  name.foldl (fun h b => (h + b) % 4294967296) 0

/-- Go's `b - '0'` on a `uint8` (wraps modulo 256; `208 = 256 - 48`). -/
def subDigit0 (b : ℕ) : ℕ := (b + 208) % 256

/-- The unsigned part of `parseFloat` (src/main.go:265-284, after the sign
has been stripped): `intPart := bs[:len(bs)-2]`, `fracPart := bs[len(bs)-1] - '0'`,
the integer part assembled in `uint8` arithmetic, and the result computed as
`float32(ip) + float32(fracPart)/10` (int→float32 conversions and float32
division are correctly rounded). -/
def parseFloatPos (bs : List ℕ) : Frac :=
  let intPart := bs.take (bs.length - 2)
  let fracPart := subDigit0 (bs.getD (bs.length - 1) 0)
  let ip : ℕ :=
    if intPart.length = 2 then
      (subDigit0 (intPart.getD 0 0) * 10 + subDigit0 (intPart.getD 1 0)) % 256
    else subDigit0 (intPart.getD 0 0)
  add32 (round32 (fofz ip)) (div32 (round32 (fofz fracPart)) (fofz 10))

/-- `parseFloat` (src/main.go:265-284).  The final `sign * (...)` is a
float32 multiplication by exactly ±1, which is exact in IEEE-754, so it is
modeled as exact negation. -/
def parseFloat (bs : List ℕ) : Frac :=
  if bs.getD 0 0 = 45 then fneg (parseFloatPos (bs.drop 1)) else parseFloatPos bs

/-- The interning step of `worker.parseLineBytes` (src/main.go:235-241):
look the station's hash up in `stationNameHashes`; on a miss, intern the
current name under that hash.  Returns the station string used as the
result-table key, and the updated interning map. -/
def internStation (intern : List (ℕ × List ℕ)) (stationBs : List ℕ) :
    List ℕ × List (ℕ × List ℕ) :=
  match nlookup (stationHash stationBs) intern with
  | some station => (station, intern)
  | none => (stationBs, intern ++ [(stationHash stationBs, stationBs)])

/-- `worker.parseLineBytes` (src/main.go:232-245): split on the semicolon
(panic → `none`), intern the station name by hash, parse the temperature. -/
def parseLineBytes (intern : List (ℕ × List ℕ)) (line : List ℕ) :
    Option (List ℕ × Frac × List (ℕ × List ℕ)) :=
  match splitOnSemi line with
  | none => none
  | some (stationBs, tempStr) =>
    let si := internStation intern stationBs
    some (si.1, parseFloat tempStr, si.2)

/-- The per-record table update of `worker.run` (src/main.go:221-224):
`s.min = min(s.min, temp); s.max = max(s.max, temp); s.sum += temp; s.count++`,
all in float32. -/
def updateStats (s : stats) (temp : Frac) : stats :=
  ⟨fmin s.min temp, fmax s.max temp, add32 s.sum temp, add32 s.count (fofz 1)⟩

/-- The record handling of `worker.run` (src/main.go:217-224): a missing
key is first inserted as `&stats{min: temp, max: temp}` (sum and count
zero), then the update lines run. -/
def resUpdate (res : List (List ℕ × stats)) (station : List ℕ) (temp : Frac) :
    List (List ℕ × stats) :=
  match alookup station res with
  | none => res ++ [(station, updateStats ⟨temp, temp, ⟨0, 1⟩, ⟨0, 1⟩⟩ temp)]
  | some _ => res.map (fun p => if p.1 = station then (p.1, updateStats p.2 temp) else p)

/-- The line scan of `worker.run` (src/main.go:209-228): a record is handled
exactly when its terminating `'\n'` (byte 10) is seen inside the chunk; any
trailing bytes after the last newline of the chunk are never handled.
Returns the handled records in order. -/
def scanLines (cur : List ℕ) : List ℕ → List (List ℕ)
  | [] => []
  | b :: rest => if b = 10 then cur.reverse :: scanLines [] rest else scanLines (b :: cur) rest

/-- Folding the handled records of a chunk through `parseLineBytes` and the
table update, threading the interning map (the body of `worker.run`,
src/main.go:207-230).  A parse panic aborts the worker (`none`). -/
def workerLines (st : List (ℕ × List ℕ) × List (List ℕ × stats)) :
    List (List ℕ) → Option (List (ℕ × List ℕ) × List (List ℕ × stats))
  | [] => some st
  | line :: rest =>
    match parseLineBytes st.1 line with
    | none => none
    | some (station, temp, intern) => workerLines (intern, resUpdate st.2 station temp) rest

/-- `worker.run` (src/main.go:207-230) on one chunk, starting from a fresh
worker (`NewWorker`, empty interning map) and an empty result table. -/
def workerRun (chunk : List ℕ) : Option (List (List ℕ × stats)) :=
  (workerLines ([], []) (scanLines [] chunk)).map (fun st => st.2)

/-! ## Chunk planning and the run pipeline -/

/-- The backward newline scan of `run` (src/main.go:140-145):
`for i := theoreticalEnd; i > start; i--`, returning the first `i` with
`file[i] == '\n'`; when the loop finds nothing the chunk's `end` field
keeps its Go zero value 0, which this function returns. -/
def findLastEOL (file : List ℕ) (start : ℕ) : ℕ → ℕ
  | 0 => 0
  | i+1 =>
    if i+1 ≤ start then 0
    else if file.getD (i+1) 0 = 10 then i+1
    else findLastEOL file start i

/-- The chunk-planning loop of `run` (src/main.go:126-147), parametrized by
the number of chunks still to plan: the last chunk takes the rest of the
file; every other chunk ends at the last newline at or before
`start + chunkSize`, and the next chunk starts one past that end. -/
def chunkPlanAux (file : List ℕ) (chunkSize : ℕ) : ℕ → ℕ → List (ℕ × ℕ)
  | _, 0 => []
  | nextStart, 1 => [(nextStart, file.length)]
  | nextStart, k+2 =>
    let e := findLastEOL file nextStart (nextStart + chunkSize)
    (nextStart, e) :: chunkPlanAux file chunkSize (e+1) (k+1)

/-- The chunk plan of `run` (src/main.go:126-147) for a worker count
(`numWorkers = runtime.NumCPU()` in the source, always ≥ 1; taken here as a
parameter): start/end pairs, end exclusive. -/
def chunkPlan (file : List ℕ) (numWorkers : ℕ) : List (ℕ × ℕ) :=
  chunkPlanAux file (file.length / numWorkers) 0 numWorkers

/-- The byte slice `mmappedFile[chunk.start:chunk.end]` handed to a worker
(src/main.go:160). -/
def sliceBytes (file : List ℕ) (c : ℕ × ℕ) : List ℕ :=
  (file.drop c.1).take (c.2 - c.1)

/-- `mergeResults`' per-key combination (src/main.go:305-308): min of mins,
max of maxes, float32 sum of sums and of counts. -/
def mergeStats (a b : stats) : stats :=
  ⟨fmin a.min b.min, fmax a.max b.max, add32 a.sum b.sum, add32 a.count b.count⟩

/-- One key/value of one shard table folded into the accumulator
(src/main.go:301-310): carried over when absent, merged when present. -/
def mergeInto (acc : List (List ℕ × stats)) (kv : List ℕ × stats) :
    List (List ℕ × stats) :=
  match alookup kv.1 acc with
  | none => acc ++ [kv]
  | some _ => acc.map (fun p => if p.1 = kv.1 then (p.1, mergeStats p.2 kv.2) else p)

/-- `mergeResults` (src/main.go:298-313), folding the shard tables in order
(Go map iteration order is unspecified; the claims proved below do not
depend on it). -/
def mergeResults (resultses : List (List (List ℕ × stats))) : List (List ℕ × stats) :=
  resultses.foldl (fun acc r => r.foldl mergeInto acc) []

/-- The pipeline of `run` (src/main.go:109-173) with the worker count as a
parameter: plan the chunks, run one fresh worker per chunk slice, merge.
A worker panic crashes the process (`none`). -/
def run (file : List ℕ) (numWorkers : ℕ) : Option (List (List ℕ × stats)) :=
  ((chunkPlan file numWorkers).mapM (fun c => workerRun (sliceBytes file c))).map mergeResults

/-! ## Formatting -/

/-- Decimal digits (ASCII bytes) of a natural number. -/
def natDecimal (n : ℕ) : List ℕ := (Nat.toDigits 10 n).map Char.toNat

/-- Go's `%.1f` on the exact value of a float: round the magnitude to one
fractional decimal digit — Go's `strconv` rounds the exact decimal expansion
to nearest, and an exact tie rounds up iff the digit before the rounding
position is odd, i.e. ties to even — and print sign, integer part, `'.'`,
fractional digit.  (A negative zero float32 is not distinguished here; the
values printed in the theorems below are nonzero or positive.) -/
def fmtFixed1 (q : Frac) : List ℕ :=
  let n := rneN (10 * q.num.natAbs) q.den
  (if q.num < 0 then [45] else []) ++ natDecimal (n / 10) ++ [46] ++ natDecimal (n % 10)

/-- Lexicographic byte order on names (Go `string` comparison used by
`slices.Sort`). -/
def byteLe : List ℕ → List ℕ → Bool
  | [], _ => true
  | _ :: _, [] => false
  | a :: as, b :: bs => if a < b then true else if b < a then false else byteLe as bs

def insertName (n : List ℕ) : List (List ℕ) → List (List ℕ)
  | [] => [n]
  | m :: rest => if byteLe n m then n :: m :: rest else m :: insertName n rest

/-- Ascending sort of the table's names (`slices.Sort(names)`); the names
of a table are distinct, so any correct sort produces this result. -/
def sortNames (l : List (List ℕ)) : List (List ℕ) := l.foldr insertName []

/-- `printRes` (src/main.go:285-296): names in ascending byte order, each
entry printed as `name=%.1f/%.1f/%.1f,` with the fields `stats.min`,
`stats.max`, `stats.sum/stats.count` — min, max, average in that order —
each entry followed by a comma, the whole wrapped in braces and a final
newline. -/
def printRes (res : List (List ℕ × stats)) : List ℕ :=
  let names := sortNames (res.map (fun p => p.1))
  [123] ++
    cat (names.map (fun name =>
      let s := (alookup name res).getD statsDefault
      name ++ [61] ++ fmtFixed1 s.min ++ [47] ++ fmtFixed1 s.max ++ [47] ++
        fmtFixed1 (div32 s.sum s.count) ++ [44])) ++
    [125, 10]

/-- `printRes` of the later variant (src/unnamed/part_001:285-297): the
table is keyed by station hash with the name stored in each entry;
`getStationsToHashes` recovers the name→entry association, the names are
sorted ascending, and each entry prints as `name=%.1f/%.1f/%.1f,` with the
fields `stats.min`, `stats.sum/stats.count`, `stats.max` — min, average,
max — each entry followed by a comma, braces and newline as above.  It is
modeled on the recovered name→stats association. -/
def printResLatest (res : List (List ℕ × stats)) : List ℕ :=
  let names := sortNames (res.map (fun p => p.1))
  [123] ++
    cat (names.map (fun name =>
      let s := (alookup name res).getD statsDefault
      name ++ [61] ++ fmtFixed1 s.min ++ [47] ++ fmtFixed1 (div32 s.sum s.count) ++ [47] ++
        fmtFixed1 s.max ++ [44])) ++
    [125, 10]

/-- The worker-outcome handling of `run` (src/main.go:149-173): each worker
produces a result table and possibly an error; `run` logs a worker's error
and otherwise ignores it, merges all tables, prints, and returns `nil` —
i.e. it always returns successfully, whatever the outcomes carry. -/
def runCollect (outcomes : List (List (List ℕ × stats) × Option (List ℕ))) :
    Except (List ℕ) (List ℕ) :=
  Except.ok (printRes (mergeResults (outcomes.map (fun o => o.1))))

/-! ## The value grammar (from the spec, §6: optional `'-'`, one or two
ASCII digits, `'.'`, exactly one ASCII digit) -/

def isDigit (b : ℕ) : Bool := decide (48 ≤ b ∧ b ≤ 57)

/-- The unsigned part of the grammar: one or two ASCII digits, `'.'`
(byte 46), exactly one ASCII digit. -/
def valueShapePos (u : List ℕ) : Bool :=
  match u with
  | [a, d, b] => isDigit a && (d == 46) && isDigit b
  | [a, b, d, c] => isDigit a && isDigit b && (d == 46) && isDigit c
  | _ => false

/-- A well-formed value field: an optional leading `'-'` (byte 45) followed
by the unsigned shape — the four shapes `d.d`, `-d.d`, `dd.d`, `-dd.d`. -/
def valueShape (v : List ℕ) : Bool :=
  if v.getD 0 0 = 45 then valueShapePos (v.drop 1) else valueShapePos v

/-- The exact rational denoted by the unsigned part of a value string. -/
def denotedPos (u : List ℕ) : Frac :=
  match u with
  | [a, _, b] => fadd (fofz ((a : ℤ) - 48)) (fmk ((b : ℤ) - 48) 10)
  | [a, b, _, c] =>
    fadd (fofz (10 * ((a : ℤ) - 48) + ((b : ℤ) - 48))) (fmk ((c : ℤ) - 48) 10)
  | _ => ⟨0, 1⟩

/-- The exact rational number a well-formed value string denotes (the
decimal literal it spells). -/
def denotedValue (v : List ℕ) : Frac :=
  if v.getD 0 0 = 45 then fneg (denotedPos (v.drop 1)) else denotedPos v

/-- `parseFloat` of the oldest variant (src/1brc/main.go:240-267).  It
subtracts `'0'` from every byte of its input slice **in place** (skipping a
`'.'` via `continue`, and never touching a leading `'-'`, which was sliced
off before the loop); the integer part is then read back from the mutated
prefix before the last `'.'`.  The model returns the parsed value together
with the final contents of the caller's buffer. -/
def parseFloatMut (bs0 : List ℕ) : Frac × List ℕ :=
  let neg := bs0.getD 0 0 = 45
  let bs := if neg then bs0.drop 1 else bs0
  let bsM := bs.map (fun b => if b = 46 then b else subDigit0 b)
  let ipLen := bs.enum.foldl (fun acc p => if p.2 = 46 then p.1 else acc) bs.length
  let intPart := bsM.take ipLen
  let ip : ℤ := intPart.foldl (fun acc d => acc * 10 + (d : ℤ)) 0
  let fp : ℕ := bsM.getD (bsM.length - 1) 0
  let value := add32 (round32 (fofz ip)) (div32 (round32 (fofz fp)) (fofz 10))
  ((if neg then fneg value else value), (if neg then [45] else []) ++ bsM)

/-! ## Concrete inputs used by the theorems -/

/-- The spec's three-line end-to-end example. -/
def exampleFile : List ℕ := strBytes "Hamburg;12.0\nBulawayo;8.9\nHamburg;8.0\n"

/-- A two-record file. -/
def twoLineFile : List ℕ := strBytes "a;1.0\nb;2.0\n"

/-- Two records whose exact float32 average is 10.25, an exact `x.x5` tie. -/
def tieFile : List ℕ := strBytes "A;10.0\nA;10.5\n"

/-- Two records whose exact float32 average is 10.75, an exact `x.x5` tie. -/
def tieFile2 : List ℕ := strBytes "A;10.5\nA;11.0\n"

/-- Two distinct keys with equal byte sums (`stationHash` collision). -/
def collideFile : List ℕ := strBytes "ab;1.0\nba;2.0\n"

/-- One full record followed by 18 bytes containing no newline. -/
def longTailFile : List ℕ := strBytes "a;1.0\n" ++ List.replicate 18 120

/-- All records of a file (each terminated by a newline). -/
def records (file : List ℕ) : List (List ℕ) := scanLines [] file

/-- The records handled across all chunks of the plan, in chunk order. -/
def parsedRecords (file : List ℕ) (numWorkers : ℕ) : List (List ℕ) :=
  cat ((chunkPlan file numWorkers).map (fun c => scanLines [] (sliceBytes file c)))

/-! ## Claim C1 — chunk planning and the per-chunk scan

The plan snaps a non-final chunk's exclusive end to the index of a newline,
so the slice `mmappedFile[start:end]` excludes that newline; `worker.run`
only handles a record when it sees the record's `'\n'` inside its chunk, so
the last record of every non-final chunk is handled by no worker at all. -/

/-- Claim C1 (code bug): on the two-record file `"a;1.0\nb;2.0\n"` with 2
workers, the plan is `[(0,5), (6,12)]` — the newline of the first record
sits at index 5, the exclusive end of chunk 0 — and the records handled
across all chunks are just `["b;2.0"]`, while the file's records are
`["a;1.0", "b;2.0"]`: record `"a;1.0"` is parsed by no worker, refuting
"each of the N records is parsed exactly once". -/
theorem chunkScan_drops_last_record_of_chunk :
    chunkPlan twoLineFile 2 = [(0, 5), (6, 12)] ∧
    records twoLineFile = [strBytes "a;1.0", strBytes "b;2.0"] ∧
    parsedRecords twoLineFile 2 = [strBytes "b;2.0"] := by
  refine ⟨by decide, by decide, by decide⟩

/-! ## Claim C2 — worker errors are not propagated out of `run` -/

/-- Claim C2 counterexample: a worker outcome carrying an error is ignored
by `run`'s collection logic — the run still completes normally, printing the
merged (here empty) result, instead of propagating the error. -/
theorem runCollect_ok_despite_worker_error :
    runCollect [([], some (strBytes "parsing line: malformed"))] =
      Except.ok [123, 125, 10] := rfl

/-- Claim C2 (amended): `run` returns successfully whatever errors the
worker outcomes carry (the error is logged and dropped, src/main.go:160-162,
and `run` returns `nil`, src/main.go:172); a malformed record without a
semicolon does not even produce a worker error — it panics inside
`splitOnSemi` (src/main.go:254), modeled as `none`. -/
theorem runCollect_always_ok :
    (∀ outcomes, ∃ output, runCollect outcomes = Except.ok output) ∧
    splitOnSemi (strBytes "Hamburg12.0") = none :=
  ⟨fun outcomes => ⟨_, rfl⟩, by decide⟩

/-! ## Claim C3 — the formatter's exact output on the example -/

/-- Claim C3 counterexample: on the spec's three-line example the formatter
(the later variant, which does print min/avg/max) emits a comma after
*every* entry, including the last, so the output is not the claimed
`{Bulawayo=8.9/8.9/8.9,Hamburg=8.0/10.0/12.0}` + newline. -/
theorem printRes_example_not_claimed_string :
    printResLatest ((run exampleFile 1).getD []) ≠
      [123] ++ strBytes "Bulawayo=8.9/8.9/8.9,Hamburg=8.0/10.0/12.0" ++ [125, 10] := by
  decide

/-- Claim C3 (amended): keys ascending, entries `name=min/avg/max`, but a
trailing comma precedes the closing brace: the example's exact output is
`{Bulawayo=8.9/8.9/8.9,Hamburg=8.0/10.0/12.0,}` followed by a newline.
(The root `src/main.go` variant of `printRes` even prints `min/max/avg`;
the spec's §9 notes the variants drift on exactly these two points.) -/
theorem printRes_example_output :
    printResLatest ((run exampleFile 1).getD []) =
      [123] ++ strBytes "Bulawayo=8.9/8.9/8.9,Hamburg=8.0/10.0/12.0," ++ [125, 10] := by
  decide

/-! ## Claim C4 — aggregation identity is the hash, not the byte sequence -/

/-- Claim C4 counterexample: `"ab"` and `"ba"` are distinct keys with equal
byte sums, so `stationHash` collides; the worker merges both records into
the single entry interned first (`"ab"`, with count 2 and both temperatures
aggregated), and `"ba"` has no entry of its own. -/
theorem collision_merges_distinct_keys :
    workerRun collideFile =
      some [(strBytes "ab", ⟨⟨1, 1⟩, ⟨2, 1⟩, ⟨3, 1⟩, ⟨2, 1⟩⟩)] ∧
    alookup (strBytes "ba") ((workerRun collideFile).getD []) = none := by
  refine ⟨by decide, by decide⟩

/-! ## Claim C5 — rounding of printed fields on exact ties -/

/-- Claim C5 counterexample: the key `A` of `tieFile` has records 10.0 and
10.5 (both exactly representable), float32 sum 20.5 and count 2, so its
true average is exactly 41/4 = 10.25, an `x.x5` tie; the formatter prints
`10.2` (ties to even, the Go `%.1f` behavior), not the claimed `10.3`
(round toward positive infinity). -/
theorem tie_average_rounds_to_even_not_up :
    div32 ((alookup (strBytes "A") ((run tieFile 1).getD [])).getD statsDefault).sum
        ((alookup (strBytes "A") ((run tieFile 1).getD [])).getD statsDefault).count
      = ⟨41, 4⟩ ∧
    fmtFixed1 ⟨41, 4⟩ = strBytes "10.2" ∧
    strBytes "10.2" ≠ strBytes "10.3" := by
  refine ⟨by decide, by decide, by decide⟩

/-- Claim C5 (amended): printed fields use one fractional digit with ties
rounded to even (banker's rounding): the pipeline average 10.25 prints as
`10.2` (down, even) and the pipeline average 10.75 — key `A` of `tieFile2`,
records 10.5 and 11.0 — prints as `10.8` (up, even). -/
theorem tie_averages_print_bankers :
    fmtFixed1 (div32
        ((alookup (strBytes "A") ((run tieFile 1).getD [])).getD statsDefault).sum
        ((alookup (strBytes "A") ((run tieFile 1).getD [])).getD statsDefault).count)
      = strBytes "10.2" ∧
    div32 ((alookup (strBytes "A") ((run tieFile2 1).getD [])).getD statsDefault).sum
        ((alookup (strBytes "A") ((run tieFile2 1).getD [])).getD statsDefault).count
      = ⟨43, 4⟩ ∧
    fmtFixed1 ⟨43, 4⟩ = strBytes "10.8" := by
  refine ⟨by decide, by decide, by decide⟩

/-! ## Claim C6 — worker-count independence -/

/-- Claim C6 counterexample: the same file run with 1 worker and with 2
workers yields different final merged results (with 2 workers the chunk
plan drops the record at the first chunk boundary, cf. C1; float32 summing
is furthermore not associative, so equal record sets can still merge to
different sums under different groupings). -/
theorem run_depends_on_worker_count :
    run twoLineFile 1 ≠ run twoLineFile 2 := by decide

/-! ## Claim C8 — degenerate chunk planning -/

/-- Claim C8 counterexample: on a file whose bytes 7..24 contain no newline,
the backward scan of the second chunk finds nothing and the chunk keeps its
zero-valued end: the plan contains the chunk `(6, 0)` whose end is before
its start (the Go slice `mmappedFile[6:0]` panics). -/
theorem chunkPlan_produces_inverted_chunk :
    chunkPlan longTailFile 3 = [(0, 5), (6, 0), (1, 24)] ∧
    ¬ (∀ c ∈ chunkPlan longTailFile 3, c.1 ≤ c.2) := by
  refine ⟨by decide, by decide⟩

/-- Claim C8 (amended): when no newline exists strictly after `start` and at
or before `n` (the naive boundary `start + chunkSize`), the backward scan
returns 0 — the chunk's `end` keeps the Go zero value, which for a chunk
with positive start yields `end < start` (an inverted slice, as the
counterexample exhibits concretely). -/
theorem findLastEOL_no_newline (file : List ℕ) (start : ℕ) :
    ∀ n, (∀ i, start < i → i ≤ n → file.getD i 0 ≠ 10) → findLastEOL file start n = 0 := by
  intro n
  induction n with
  | zero => intro _; rfl
  | succ m ih =>
    intro h
    show (if m + 1 ≤ start then 0
      else if file.getD (m+1) 0 = 10 then m+1 else findLastEOL file start m) = 0
    by_cases hs : m + 1 ≤ start
    · rw [if_pos hs]
    · rw [if_neg hs, if_neg (h (m+1) (by omega) (by omega))]
      exact ih (fun i h1 h2 => h i h1 (by omega))

/-- Witness for `findLastEOL_no_newline` at a concrete input. -/
theorem findLastEOL_no_newline_witness :
    (∀ i, 0 < i → i ≤ 3 → (strBytes "aaa").getD i 0 ≠ 10) ∧
    findLastEOL (strBytes "aaa") 0 3 = 0 := by
  have h : ∀ i, 0 < i → i ≤ 3 → (strBytes "aaa").getD i 0 ≠ 10 := by
    intro i h1 h2
    interval_cases i <;> decide
  exact ⟨h, findLastEOL_no_newline (strBytes "aaa") 0 3 h⟩

/-! ## Claim C4 (amended) — grouping is exactly by `stationHash` -/

/-- Invariant of the interning map `stationNameHashes`: every entry maps a
hash value to a name having that hash. -/
def internInv (intern : List (ℕ × List ℕ)) : Prop :=
  ∀ p ∈ intern, stationHash p.2 = p.1

theorem nlookup_mem {β : Type} (k : ℕ) (v : β) :
    ∀ m : List (ℕ × β), nlookup k m = some v → (k, v) ∈ m := by
  intro m
  induction m with
  | nil => intro h; simp [nlookup] at h
  | cons p rest ih =>
    intro h
    by_cases hp : p.1 = k
    · rw [nlookup, if_pos hp] at h
      injection h with h2
      have hpq : p = (k, v) := by
        cases p
        dsimp at hp h2
        rw [hp, h2]
      rw [← hpq]
      exact List.mem_cons_self _ _
    · rw [nlookup, if_neg hp] at h
      exact List.mem_cons_of_mem _ (ih h)

theorem internStation_hash (intern : List (ℕ × List ℕ)) (n : List ℕ)
    (hm : internInv intern) :
    stationHash (internStation intern n).1 = stationHash n := by
  unfold internStation
  cases h : nlookup (stationHash n) intern with
  | none => rfl
  | some s => exact hm (stationHash n, s) (nlookup_mem _ _ _ h)

theorem internInv_preserved (intern : List (ℕ × List ℕ)) (n : List ℕ)
    (hm : internInv intern) : internInv (internStation intern n).2 := by
  unfold internStation
  cases h : nlookup (stationHash n) intern with
  | none =>
    intro p hp
    rcases List.mem_append.mp hp with hin | hnew
    · exact hm p hin
    · rcases List.mem_singleton.mp hnew with rfl
      rfl
  | some s => exact hm

/-- Claim C4 (amended): the worker's result table is keyed by the interned
station string, and interning is a function of `stationHash` alone: two
records whose names hash differently are interned to two different station
strings, hence never contribute to the same Aggregate (while, as the
counterexample shows, two distinct names with equal hashes are merged into
the entry of the first-seen name). -/
theorem distinct_hashes_distinct_entries
    (intern : List (ℕ × List ℕ)) (n₁ n₂ : List ℕ)
    (hm : internInv intern) (hne : stationHash n₁ ≠ stationHash n₂) :
    (internStation intern n₁).1 ≠ (internStation (internStation intern n₁).2 n₂).1 := by
  intro heq
  have h1 := internStation_hash intern n₁ hm
  have h2 := internStation_hash (internStation intern n₁).2 n₂
    (internInv_preserved intern n₁ hm)
  exact hne (by rw [← h1, heq, h2])

/-- Witness for `distinct_hashes_distinct_entries` at a concrete input:
fresh worker, names `"a"` and `"b"`. -/
theorem distinct_hashes_distinct_entries_witness :
    internInv [] ∧ stationHash [97] ≠ stationHash [98] ∧
    (internStation [] [97]).1 ≠ (internStation (internStation [] [97]).2 [98]).1 := by
  have h0 : internInv [] := by intro p hp; simp at hp
  exact ⟨h0, by decide, distinct_hashes_distinct_entries [] [97] [98] h0 (by decide)⟩

/-! ## Claim C6 (amended) — what survives of merge algebra -/

/-- Component-wise value equality of two `stats`. -/
def statsEq (a b : stats) : Prop :=
  feq a.min b.min ∧ feq a.max b.max ∧ feq a.sum b.sum ∧ feq a.count b.count

theorem feq_refl (x : Frac) : feq x x := rfl

theorem fmin_comm_feq (x y : Frac) : feq (fmin x y) (fmin y x) := by
  unfold fmin
  by_cases h1 : fle x y = true
  · by_cases h2 : fle y x = true
    · rw [if_pos h1, if_pos h2]
      rw [fle, decide_eq_true_eq] at h1 h2
      exact le_antisymm h1 h2
    · rw [if_pos h1, if_neg h2]
      exact feq_refl x
  · by_cases h2 : fle y x = true
    · rw [if_neg h1, if_pos h2]
      exact feq_refl y
    · rw [if_neg h1, if_neg h2]
      rw [fle] at h1 h2
      simp only [decide_eq_true_eq] at h1 h2
      linarith [not_le.mp h1, not_le.mp h2]

theorem fmax_comm_feq (x y : Frac) : feq (fmax x y) (fmax y x) := by
  unfold fmax
  by_cases h1 : fle x y = true
  · by_cases h2 : fle y x = true
    · rw [if_pos h1, if_pos h2]
      rw [fle, decide_eq_true_eq] at h1 h2
      exact le_antisymm h2 h1
    · rw [if_pos h1, if_neg h2]
      exact feq_refl y
  · by_cases h2 : fle y x = true
    · rw [if_neg h1, if_pos h2]
      exact feq_refl x
    · rw [if_neg h1, if_neg h2]
      rw [fle] at h1 h2
      simp only [decide_eq_true_eq] at h1 h2
      linarith [not_le.mp h1, not_le.mp h2]

theorem fadd_comm (x y : Frac) : fadd x y = fadd y x := by
  unfold fadd
  rw [add_comm (x.num * y.den) (y.num * x.den), Nat.mul_comm x.den y.den]

theorem add32_comm (x y : Frac) : add32 x y = add32 y x := by
  unfold add32
  rw [fadd_comm]

/-- Claim C6 (amended): the per-key merge of `mergeResults` is commutative
(component-wise, as values).  Full associativity — and with it worker-count
independence — does not hold: float32 sums depend on grouping, and the
chunk plan already drops boundary records (see the counterexample and C1). -/
theorem mergeStats_comm (a b : stats) : statsEq (mergeStats a b) (mergeStats b a) := by
  refine ⟨fmin_comm_feq _ _, fmax_comm_feq _ _, ?_, ?_⟩
  · show feq (add32 a.sum b.sum) (add32 b.sum a.sum)
    rw [add32_comm]
    exact feq_refl _
  · show feq (add32 a.count b.count) (add32 b.count a.count)
    rw [add32_comm]
    exact feq_refl _

/-! ## Claim C9 — the probing split equals the scanning split -/

/-- Shape analysis of a well-formed value field. -/
theorem valueShapePos_cases (u : List ℕ) (hu : valueShapePos u = true) :
    (∃ a b, (48 ≤ a ∧ a ≤ 57) ∧ (48 ≤ b ∧ b ≤ 57) ∧ u = [a, 46, b]) ∨
    (∃ a b c, (48 ≤ a ∧ a ≤ 57) ∧ (48 ≤ b ∧ b ≤ 57) ∧ (48 ≤ c ∧ c ≤ 57) ∧
      u = [a, b, 46, c]) := by
  rcases u with _ | ⟨a, _ | ⟨d3, _ | ⟨b3, _ | ⟨c4, _ | ⟨e5, rest⟩⟩⟩⟩⟩
  · simp [valueShapePos] at hu
  · simp [valueShapePos] at hu
  · simp [valueShapePos] at hu
  · simp only [valueShapePos, isDigit, Bool.and_eq_true, beq_iff_eq,
      decide_eq_true_eq] at hu
    obtain ⟨⟨ha, hd⟩, hb⟩ := hu
    subst hd
    exact Or.inl ⟨a, b3, ha, hb, rfl⟩
  · simp only [valueShapePos, isDigit, Bool.and_eq_true, beq_iff_eq,
      decide_eq_true_eq] at hu
    obtain ⟨⟨⟨ha, hb⟩, hd⟩, hc⟩ := hu
    subst hd
    exact Or.inr ⟨a, d3, c4, ha, hb, hc, rfl⟩
  · simp [valueShapePos] at hu

theorem valueShape_cases (v : List ℕ) (hv : valueShape v = true) :
    (∃ a b, (48 ≤ a ∧ a ≤ 57) ∧ (48 ≤ b ∧ b ≤ 57) ∧ v = [a, 46, b]) ∨
    (∃ a b, (48 ≤ a ∧ a ≤ 57) ∧ (48 ≤ b ∧ b ≤ 57) ∧ v = [45, a, 46, b]) ∨
    (∃ a b c, (48 ≤ a ∧ a ≤ 57) ∧ (48 ≤ b ∧ b ≤ 57) ∧ (48 ≤ c ∧ c ≤ 57) ∧
      v = [a, b, 46, c]) ∨
    (∃ a b c, (48 ≤ a ∧ a ≤ 57) ∧ (48 ≤ b ∧ b ≤ 57) ∧ (48 ≤ c ∧ c ≤ 57) ∧
      v = [45, a, b, 46, c]) := by
  unfold valueShape at hv
  by_cases h45 : v.getD 0 0 = 45
  · rw [if_pos h45] at hv
    rcases v with _ | ⟨x, u⟩
    · simp [List.getD] at h45
    · have hx : x = 45 := by simpa using h45
      subst hx
      rcases valueShapePos_cases u hv with ⟨a, b, ha, hb, rfl⟩ |
        ⟨a, b, c, ha, hb, hc, rfl⟩
      · exact Or.inr (Or.inl ⟨a, b, ha, hb, rfl⟩)
      · exact Or.inr (Or.inr (Or.inr ⟨a, b, c, ha, hb, hc, rfl⟩))
  · rw [if_neg h45] at hv
    rcases valueShapePos_cases v hv with ⟨a, b, ha, hb, rfl⟩ |
      ⟨a, b, c, ha, hb, hc, rfl⟩
    · exact Or.inl ⟨a, b, ha, hb, rfl⟩
    · exact Or.inr (Or.inr (Or.inl ⟨a, b, c, ha, hb, hc, rfl⟩))

/-- The scanning split returns the key/value pair of a well-separated line. -/
theorem splitOnSemi_append (key v : List ℕ) (hk : ∀ b ∈ key, b ≠ 59) :
    splitOnSemi (key ++ 59 :: v) = some (key, v) := by
  induction key with
  | nil => rfl
  | cons b bs ih =>
    have hb : b ≠ 59 := hk b (List.mem_cons_self _ _)
    rw [List.cons_append, splitOnSemi, if_neg hb,
      ih (fun x hx => hk x (List.mem_cons_of_mem _ hx))]
    rfl

theorem take_key (key v : List ℕ) : (key ++ 59 :: v).take key.length = key := by
  rw [List.take_append_of_le_length (le_refl _), List.take_length]

theorem drop_key (key v : List ℕ) : (key ++ 59 :: v).drop (key.length + 1) = v := by
  rw [List.append_cons, show key.length + 1 = (key ++ [59]).length by simp,
    List.drop_left]

theorem getD_sep (key v : List ℕ) : (key ++ 59 :: v).getD key.length 0 = 59 := by
  rw [List.getD_append_right _ _ _ _ (le_refl _), Nat.sub_self]
  rfl

theorem getD_key (key v : List ℕ) (i : ℕ) (h : i < key.length)
    (hk : ∀ b ∈ key, b ≠ 59) : (key ++ 59 :: v).getD i 0 ≠ 59 := by
  rw [List.getD_append _ _ _ _ h, List.getD_eq_getElem _ _ h]
  exact hk _ (List.getElem_mem h)

theorem getD_val (key v : List ℕ) (i : ℕ) :
    (key ++ 59 :: v).getD (key.length + 1 + i) 0 = v.getD i 0 := by
  rw [List.getD_append_right _ _ _ _ (by omega),
    show key.length + 1 + i - key.length = i + 1 by omega]
  rfl

/-- Claim C9: for every line `key;value` whose key is nonempty and contains
no `';'` and whose value matches the fixed grammar, the probing split
(distances 5, 4, 6 from the end) and the full left-to-right scan return the
same `(key, value)` pair. -/
theorem splitOnSemiProbe_eq_splitOnSemi (key v : List ℕ) (hkey : key ≠ [])
    (hk : ∀ b ∈ key, b ≠ 59) (hv : valueShape v = true) :
    splitOnSemiProbe (key ++ 59 :: v) = some (key, v) ∧
    splitOnSemi (key ++ 59 :: v) = some (key, v) := by
  refine ⟨?_, splitOnSemi_append key v hk⟩
  have hk1 : 1 ≤ key.length := List.length_pos.mpr hkey
  rcases valueShape_cases v hv with ⟨a, b, ha, hb, rfl⟩ | ⟨a, b, ha, hb, rfl⟩ |
    ⟨a, b, c, ha, hb, hc, rfl⟩ | ⟨a, b, c, ha, hb, hc, rfl⟩
  · -- value d.d : line length k+4; probe 5 lands inside the key, probe 4 hits
    have hlen : (key ++ 59 :: [a, 46, b]).length = key.length + 4 := by simp
    unfold splitOnSemiProbe
    rw [hlen, show key.length + 4 - 5 = key.length - 1 by omega,
      show key.length + 4 - 4 = key.length by omega]
    rw [if_neg (getD_key key _ _ (by omega) hk), if_pos (getD_sep key _),
      take_key, drop_key]
  · -- value -d.d : line length k+5; probe 5 hits at the separator
    have hlen : (key ++ 59 :: [45, a, 46, b]).length = key.length + 5 := by simp
    unfold splitOnSemiProbe
    rw [hlen, show key.length + 5 - 5 = key.length by omega]
    rw [if_pos (getD_sep key _), take_key, drop_key]
  · -- value dd.d : line length k+5; probe 5 hits at the separator
    have hlen : (key ++ 59 :: [a, b, 46, c]).length = key.length + 5 := by simp
    unfold splitOnSemiProbe
    rw [hlen, show key.length + 5 - 5 = key.length by omega]
    rw [if_pos (getD_sep key _), take_key, drop_key]
  · -- value -dd.d : line length k+6; probes 5 and 4 land inside the value
    have hlen : (key ++ 59 :: [45, a, b, 46, c]).length = key.length + 6 := by simp
    unfold splitOnSemiProbe
    rw [hlen, show key.length + 6 - 5 = key.length + 1 + 0 by omega,
      show key.length + 6 - 4 = key.length + 1 + 1 by omega,
      show key.length + 6 - 6 = key.length by omega]
    rw [getD_val key _ 0, getD_val key _ 1]
    rw [if_neg (by simp), if_neg (by simp; omega), if_pos (getD_sep key _),
      take_key, drop_key]

/-- Witness for `splitOnSemiProbe_eq_splitOnSemi`: the line `"Ha;-12.5"`. -/
theorem splitOnSemiProbe_eq_splitOnSemi_witness :
    (strBytes "Ha" ≠ [] ∧ (∀ b ∈ strBytes "Ha", b ≠ 59) ∧
      valueShape (strBytes "-12.5") = true) ∧
    splitOnSemiProbe (strBytes "Ha" ++ 59 :: strBytes "-12.5") =
      some (strBytes "Ha", strBytes "-12.5") ∧
    splitOnSemi (strBytes "Ha" ++ 59 :: strBytes "-12.5") =
      some (strBytes "Ha", strBytes "-12.5") :=
  ⟨⟨by decide, by decide, by decide⟩,
    splitOnSemiProbe_eq_splitOnSemi (strBytes "Ha") (strBytes "-12.5")
      (by decide) (by decide) (by decide)⟩

/-! ## Claim C10 — `parseFloat` of src/1brc/main.go mutates its input -/

/-- Claim C10: on every well-formed value field, the oldest variant's
`parseFloat` leaves the caller's buffer with `'0'` subtracted from every
digit byte (the `'-'` and `'.'` bytes are untouched), so the buffer no
longer holds the original value characters and cannot be re-parsed. -/
theorem parseFloatMut_clobbers_buffer (v : List ℕ) (hv : valueShape v = true) :
    (parseFloatMut v).2 = v.map (fun b => if b = 45 ∨ b = 46 then b else subDigit0 b) ∧
    (parseFloatMut v).2 ≠ v := by
  rcases valueShape_cases v hv with ⟨a, b, ha, hb, rfl⟩ | ⟨a, b, ha, hb, rfl⟩ |
    ⟨a, b, c, ha, hb, hc, rfl⟩ | ⟨a, b, c, ha, hb, hc, rfl⟩
  · have ha45 : a ≠ 45 := by omega
    have ha46 : a ≠ 46 := by omega
    have hb45 : b ≠ 45 := by omega
    have hb46 : b ≠ 46 := by omega
    constructor
    · simp [parseFloatMut, ha45, ha46, hb45, hb46]
    · simp only [parseFloatMut, List.getD_cons_zero, if_neg ha45, if_false,
        List.map_cons, List.map_nil, if_neg ha46, if_neg hb46, List.nil_append]
      intro heq
      simp only [List.cons.injEq] at heq
      have := heq.1
      unfold subDigit0 at this
      omega
  · have ha45 : a ≠ 45 := by omega
    have ha46 : a ≠ 46 := by omega
    have hb45 : b ≠ 45 := by omega
    have hb46 : b ≠ 46 := by omega
    constructor
    · simp [parseFloatMut, ha45, ha46, hb45, hb46]
    · simp [parseFloatMut, ha46, hb46, subDigit0]
      intro heq
      omega
  · have ha45 : a ≠ 45 := by omega
    have ha46 : a ≠ 46 := by omega
    have hb45 : b ≠ 45 := by omega
    have hb46 : b ≠ 46 := by omega
    have hc45 : c ≠ 45 := by omega
    have hc46 : c ≠ 46 := by omega
    constructor
    · simp [parseFloatMut, ha45, ha46, hb45, hb46, hc45, hc46]
    · simp only [parseFloatMut, List.getD_cons_zero, if_neg ha45, if_false,
        List.map_cons, List.map_nil, if_neg ha46, if_neg hb46, if_neg hc46,
        List.nil_append]
      intro heq
      simp only [List.cons.injEq] at heq
      have := heq.1
      unfold subDigit0 at this
      omega
  · have ha45 : a ≠ 45 := by omega
    have ha46 : a ≠ 46 := by omega
    have hb45 : b ≠ 45 := by omega
    have hb46 : b ≠ 46 := by omega
    have hc45 : c ≠ 45 := by omega
    have hc46 : c ≠ 46 := by omega
    constructor
    · simp [parseFloatMut, ha45, ha46, hb45, hb46, hc45, hc46]
    · simp [parseFloatMut, ha46, hb46, hc46, subDigit0]
      intro heq
      omega

/-- Witness for `parseFloatMut_clobbers_buffer`: the value field `"23.5"`
comes back as `[2, 3, 46, 5]`, not `"23.5"`. -/
theorem parseFloatMut_clobbers_buffer_witness :
    valueShape (strBytes "23.5") = true ∧
    (parseFloatMut (strBytes "23.5")).2 =
      (strBytes "23.5").map (fun b => if b = 45 ∨ b = 46 then b else subDigit0 b) ∧
    (parseFloatMut (strBytes "23.5")).2 ≠ strBytes "23.5" :=
  ⟨by decide, parseFloatMut_clobbers_buffer (strBytes "23.5") (by decide)⟩

/-! ## Claim C7 — `parseFloat` is exact on every representable value shape -/

theorem fneg_fneg (x : Frac) : fneg (fneg x) = x := by
  rcases x with ⟨n, d⟩
  simp [fneg]

/-- IEEE rounding commutes with negation (round-to-nearest-even is
symmetric about zero). -/
theorem round32_fneg (v : Frac) : round32 (fneg v) = fneg (round32 v) := by
  rcases v with ⟨n, d⟩
  by_cases h0 : n = 0
  · subst h0
    simp [round32, fneg]
  · have hne : ¬(-n = 0) := by simpa using h0
    show round32 ⟨-n, d⟩ = fneg (round32 ⟨n, d⟩)
    simp only [round32, if_neg h0, if_neg hne, Int.natAbs_neg]
    rcases lt_or_gt_of_ne h0 with hlt | hgt
    · rw [if_neg (by omega : ¬(-n < 0)), if_pos hlt, fneg_fneg]
    · rw [if_pos (by omega : -n < 0), if_neg (by omega : ¬(n < 0))]

set_option maxRecDepth 100000 in
set_option maxHeartbeats 1000000 in
/-- `parseFloat` agrees with the correctly rounded denoted value on every
one-digit shape `d.d` (all 100 digit combinations, by computation). -/
theorem parseFloat_shape3_exact :
    ∀ a : ℕ, a < 10 → ∀ b : ℕ, b < 10 →
      parseFloat [a + 48, 46, b + 48] = round32 (denotedValue [a + 48, 46, b + 48]) := by
  decide

set_option maxRecDepth 1000000 in
set_option maxHeartbeats 8000000 in
/-- `parseFloat` agrees with the correctly rounded denoted value on every
two-digit shape `dd.d` (all 1000 digit combinations, by computation): no
double-rounding anomaly arises from computing `float32(ip) + float32(f)/10`
instead of rounding the exact decimal once. -/
theorem parseFloat_shape4_exact :
    ∀ a : ℕ, a < 10 → ∀ b : ℕ, b < 10 → ∀ c : ℕ, c < 10 →
      parseFloat [a + 48, b + 48, 46, c + 48] =
        round32 (denotedValue [a + 48, b + 48, 46, c + 48]) := by
  decide

/-- Claim C7: for every byte string matching the value grammar, `parseFloat`
returns exactly the float32 value the string denotes — the correctly rounded
image of the exact decimal (which is that decimal itself whenever it is
representable, e.g. for `"23.5"`, `"-5.0"`, `"0.0"`). -/
theorem parseFloat_round_trip (v : List ℕ) (hv : valueShape v = true) :
    parseFloat v = round32 (denotedValue v) := by
  rcases valueShape_cases v hv with ⟨a, b, ha, hb, rfl⟩ | ⟨a, b, ha, hb, rfl⟩ |
    ⟨a, b, c, ha, hb, hc, rfl⟩ | ⟨a, b, c, ha, hb, hc, rfl⟩
  · obtain ⟨a0, rfl⟩ : ∃ a0, a = a0 + 48 := ⟨a - 48, by omega⟩
    obtain ⟨b0, rfl⟩ : ∃ b0, b = b0 + 48 := ⟨b - 48, by omega⟩
    exact parseFloat_shape3_exact a0 (by omega) b0 (by omega)
  · obtain ⟨a0, rfl⟩ : ∃ a0, a = a0 + 48 := ⟨a - 48, by omega⟩
    obtain ⟨b0, rfl⟩ : ∃ b0, b = b0 + 48 := ⟨b - 48, by omega⟩
    have h1 : parseFloat [45, a0 + 48, 46, b0 + 48] =
        fneg (parseFloatPos [a0 + 48, 46, b0 + 48]) := by
      rw [parseFloat, if_pos (by simp)]
      all_goals rfl
    have h2 : parseFloatPos [a0 + 48, 46, b0 + 48] =
        parseFloat [a0 + 48, 46, b0 + 48] := by
      rw [parseFloat, if_neg (by simp)]
    have h3 : denotedValue [45, a0 + 48, 46, b0 + 48] =
        fneg (denotedValue [a0 + 48, 46, b0 + 48]) := by
      rw [denotedValue, if_pos (by simp), denotedValue, if_neg (by simp)]
      all_goals rfl
    rw [h1, h2, h3, round32_fneg]
    exact congrArg fneg (parseFloat_shape3_exact a0 (by omega) b0 (by omega))
  · obtain ⟨a0, rfl⟩ : ∃ a0, a = a0 + 48 := ⟨a - 48, by omega⟩
    obtain ⟨b0, rfl⟩ : ∃ b0, b = b0 + 48 := ⟨b - 48, by omega⟩
    obtain ⟨c0, rfl⟩ : ∃ c0, c = c0 + 48 := ⟨c - 48, by omega⟩
    exact parseFloat_shape4_exact a0 (by omega) b0 (by omega) c0 (by omega)
  · obtain ⟨a0, rfl⟩ : ∃ a0, a = a0 + 48 := ⟨a - 48, by omega⟩
    obtain ⟨b0, rfl⟩ : ∃ b0, b = b0 + 48 := ⟨b - 48, by omega⟩
    obtain ⟨c0, rfl⟩ : ∃ c0, c = c0 + 48 := ⟨c - 48, by omega⟩
    have h1 : parseFloat [45, a0 + 48, b0 + 48, 46, c0 + 48] =
        fneg (parseFloatPos [a0 + 48, b0 + 48, 46, c0 + 48]) := by
      rw [parseFloat, if_pos (by simp)]
      all_goals rfl
    have h2 : parseFloatPos [a0 + 48, b0 + 48, 46, c0 + 48] =
        parseFloat [a0 + 48, b0 + 48, 46, c0 + 48] := by
      rw [parseFloat, if_neg (by simp)]
    have h3 : denotedValue [45, a0 + 48, b0 + 48, 46, c0 + 48] =
        fneg (denotedValue [a0 + 48, b0 + 48, 46, c0 + 48]) := by
      rw [denotedValue, if_pos (by simp), denotedValue, if_neg (by simp)]
      all_goals rfl
    rw [h1, h2, h3, round32_fneg]
    exact congrArg fneg (parseFloat_shape4_exact a0 (by omega) b0 (by omega) c0 (by omega))

/-- Witness for `parseFloat_round_trip`: the value string `"-0.1"`. -/
theorem parseFloat_round_trip_witness :
    valueShape (strBytes "-0.1") = true ∧
    parseFloat (strBytes "-0.1") = round32 (denotedValue (strBytes "-0.1")) :=
  ⟨by decide, parseFloat_round_trip (strBytes "-0.1") (by decide)⟩
